import Mathlib

/-!
Verification of the inference-pipeline behavior of the notebook
`src/BERT/BERT-for-sequence-classification.ipynb` (TZeng20/Blogs).

The notebook's inference loop is

    for d in ex_input:
        art = d['description'].numpy().decode('utf-8')
        labs = list(config.id2label.values())
        actual_class = labs[d['label'].numpy()]
        inp = tokenizer(art, return_tensors='pt')
        with torch.no_grad():
            out = torch.softmax(model(**inp).logits, dim = -1)
        class_ind = np.argmax(out[0])
        predicted_class = labs[class_ind]
        output_dict = {k:v for k, v in zip(config.id2label.values(), out[0])}
        print(...)

We embed the numeric parts over `ℝ` (torch tensors become lists of reals),
the label schema as the ordered list of `config.id2label` values for the
AG-news model (4 classes), and the opaque external collaborators
(sub-word tokenizer, frozen transformer weights) as abstract functions.
-/

namespace Blogs

/-- Number of classes of the AG-news label schema (`config.id2label` has 4
entries: world, sports, business, sci/tech). -/
def numClasses : Nat := 4

/-- `list(config.id2label.values())` for `nateraw/bert-base-uncased-ag-news`,
in id order, as shown by the notebook's printed output. -/
def id2label : List String := ["World", "Sports", "Business", "Sci/Tech"]

/-- `labs = list(config.id2label.values())` from the loop body. -/
def labs : List String := id2label

/-- `torch.softmax(logits, dim = -1)`: the normalized-exponential transform
`p_i = exp(logit_i) / Σ_j exp(logit_j)`, applied along the class axis. -/
noncomputable def softmax (L : List ℝ) : List ℝ :=
  L.map (fun x => Real.exp x / (L.map Real.exp).sum)

/-- Maximum of a list, `none` on the empty list. -/
def listMax : List ℝ → Option ℝ
  | [] => none
  | x :: xs => some ((listMax xs).elim x (fun m => max x m))

/-- The numerically stable softmax described by the spec:
`p_i = exp(logit_i - max(logits)) / Σ_j exp(logit_j - max(logits))`. -/
noncomputable def softmaxStable (L : List ℝ) : List ℝ :=
  let m := (listMax L).getD 0
  L.map (fun x => Real.exp (x - m) / (L.map (fun y => Real.exp (y - m))).sum)

/-- `np.argmax`: index of the first occurrence of the maximum value
(ties broken by lowest index); applied only to nonempty vectors in the
code (`np.argmax` raises on an empty array). -/
noncomputable def npArgmax : List ℝ → Nat
  | [] => 0
  | x :: xs =>
    match listMax xs with
    | none => 0
    | some m => if m ≤ x then 0 else npArgmax xs + 1

/-- The `Prediction` record of the spec's data model: the probability
vector `out[0]` together with `class_ind = np.argmax(out[0])`. -/
structure Prediction where
  probabilities : List ℝ
  predicted_label : Nat

/-- The postprocessing of a logits vector in the loop body:
`out = torch.softmax(logits)` followed by `class_ind = np.argmax(out[0])`.
`np.argmax` raises `ValueError` on an empty vector (and `softmax` of an
empty vector is empty), so the empty logits vector is the sole failure,
modelled as `none`. -/
noncomputable def finalize (logits : List ℝ) : Option Prediction :=
  match logits with
  | [] => none
  | _ :: _ =>
    let out := softmax logits
    some { probabilities := out, predicted_label := npArgmax out }

/- ### Basic facts about sums of mapped lists -/

theorem sum_map_mul_const (L : List ℝ) (f : ℝ → ℝ) (c : ℝ) :
    (L.map fun x => f x * c).sum = (L.map f).sum * c := by
  induction L with
  | nil => simp
  | cons x xs ih => simp [ih, add_mul]

theorem sum_map_exp_pos (L : List ℝ) (h : L ≠ []) :
    0 < (L.map Real.exp).sum := by
  cases L with
  | nil => exact absurd rfl h
  | cons x xs =>
    simp only [List.map_cons, List.sum_cons]
    have hx := Real.exp_pos x
    have hxs : 0 ≤ (xs.map Real.exp).sum := by
      apply List.sum_nonneg
      intro a ha
      rcases List.mem_map.mp ha with ⟨b, _, rfl⟩
      exact (Real.exp_pos b).le
    linarith

theorem softmax_sum_one (L : List ℝ) (h : L ≠ []) :
    (softmax L).sum = 1 := by
  have hS := sum_map_exp_pos L h
  unfold softmax
  have : (L.map fun x => Real.exp x / (L.map Real.exp).sum).sum
      = (L.map Real.exp).sum * ((L.map Real.exp).sum)⁻¹ := by
    simpa [div_eq_mul_inv] using
      sum_map_mul_const L Real.exp ((L.map Real.exp).sum)⁻¹
  rw [this, mul_inv_cancel₀ (ne_of_gt hS)]

theorem softmax_nonneg (L : List ℝ) (h : L ≠ []) :
    ∀ p ∈ softmax L, 0 ≤ p := by
  intro p hp
  unfold softmax at hp
  rcases List.mem_map.mp hp with ⟨x, _, rfl⟩
  exact div_nonneg (Real.exp_pos x).le (sum_map_exp_pos L h).le

/-- Subtracting any constant shift from every logit leaves softmax
unchanged (shift invariance of the normalized exponential). -/
theorem softmax_shift (L : List ℝ) (c : ℝ) :
    (L.map fun x => Real.exp (x - c) / (L.map fun y => Real.exp (y - c)).sum)
      = softmax L := by
  have hmap : (L.map fun y => Real.exp (y - c))
      = L.map fun y => Real.exp y * Real.exp (-c) := by
    apply List.map_congr_left
    intro a _
    rw [sub_eq_add_neg, Real.exp_add]
  have hsum : (L.map fun y => Real.exp (y - c)).sum
      = (L.map Real.exp).sum * Real.exp (-c) := by
    rw [hmap]
    exact sum_map_mul_const L Real.exp (Real.exp (-c))
  unfold softmax
  apply List.map_congr_left
  intro a _
  rw [hsum, sub_eq_add_neg, Real.exp_add,
    mul_div_mul_right _ _ (Real.exp_ne_zero (-c))]

theorem softmax_eq_stable (L : List ℝ) : softmax L = softmaxStable L := by
  unfold softmaxStable
  exact (softmax_shift L ((listMax L).getD 0)).symm

/- ### Facts about `listMax` and `npArgmax` -/

theorem listMax_eq_none_iff (l : List ℝ) : listMax l = none ↔ l = [] := by
  cases l <;> simp [listMax]

theorem le_listMax (l : List ℝ) (m : ℝ) (hm : listMax l = some m) :
    ∀ a ∈ l, a ≤ m := by
  induction l generalizing m with
  | nil => simp [listMax] at hm
  | cons x xs ih =>
    intro a ha
    cases hxs : listMax xs with
    | none =>
      have hxe : xs = [] := (listMax_eq_none_iff xs).mp hxs
      subst hxe
      simp [listMax] at hm
      subst hm
      rcases List.mem_singleton.mp ha with rfl
      exact le_refl a
    | some mx =>
      simp [listMax, hxs] at hm
      subst hm
      rcases List.mem_cons.mp ha with rfl | hmem
      · exact le_max_left _ _
      · exact le_trans (ih mx hxs a hmem) (le_max_right _ _)

theorem listMax_mem (l : List ℝ) (m : ℝ) (hm : listMax l = some m) : m ∈ l := by
  induction l generalizing m with
  | nil => simp [listMax] at hm
  | cons x xs ih =>
    cases hxs : listMax xs with
    | none =>
      simp [listMax, hxs] at hm
      subst hm
      exact List.mem_cons_self _ _
    | some mx =>
      simp [listMax, hxs] at hm
      subst hm
      rcases max_choice x mx with hc | hc <;> rw [hc]
      · exact List.mem_cons_self _ _
      · exact List.mem_cons_of_mem _ (ih mx hxs)

theorem npArgmax_lt_length (l : List ℝ) (h : l ≠ []) :
    npArgmax l < l.length := by
  induction l with
  | nil => exact absurd rfl h
  | cons x xs ih =>
    cases hxs : listMax xs with
    | none => simp [npArgmax, hxs]
    | some m =>
      have hxe : xs ≠ [] := by
        intro he
        rw [he] at hxs
        simp [listMax] at hxs
      by_cases hle : m ≤ x
      · simp [npArgmax, hxs, hle]
      · simp only [npArgmax, hxs, if_neg hle, List.length_cons]
        exact Nat.succ_lt_succ (ih hxe)

/-- The entry at the arg-max index dominates every element of the list. -/
theorem le_getD_npArgmax (l : List ℝ) : ∀ a ∈ l, a ≤ l.getD (npArgmax l) 0 := by
  induction l with
  | nil => intro a ha; simp at ha
  | cons x xs ih =>
    intro a ha
    cases hxs : listMax xs with
    | none =>
      have hxe : xs = [] := (listMax_eq_none_iff xs).mp hxs
      subst hxe
      rcases List.mem_singleton.mp ha with rfl
      simp [npArgmax, listMax]
    | some m =>
      by_cases hle : m ≤ x
      · simp only [npArgmax, hxs, if_pos hle, List.getD_cons_zero]
        rcases List.mem_cons.mp ha with rfl | hmem
        · exact le_refl a
        · exact le_trans (le_listMax xs m hxs a hmem) hle
      · simp only [npArgmax, hxs, if_neg hle, List.getD_cons_succ]
        rcases List.mem_cons.mp ha with rfl | hmem
        · exact le_trans (le_of_lt (lt_of_not_le hle))
            (ih m (listMax_mem xs m hxs))
        · exact ih a hmem

/-- Every index strictly before the arg-max index holds a strictly smaller
value: `np.argmax` returns the first occurrence of the maximum. -/
theorem getD_lt_of_lt_npArgmax (l : List ℝ) :
    ∀ j, j < npArgmax l → l.getD j 0 < l.getD (npArgmax l) 0 := by
  induction l with
  | nil => intro j hj; simp [npArgmax] at hj
  | cons x xs ih =>
    intro j hj
    cases hxs : listMax xs with
    | none => simp [npArgmax, hxs] at hj
    | some m =>
      by_cases hle : m ≤ x
      · simp [npArgmax, hxs, hle] at hj
      · simp only [npArgmax, hxs, if_neg hle] at hj
        simp only [npArgmax, hxs, if_neg hle, List.getD_cons_succ]
        cases j with
        | zero =>
          simp only [List.getD_cons_zero]
          exact lt_of_lt_of_le (lt_of_not_le hle)
            (le_getD_npArgmax xs m (listMax_mem xs m hxs))
        | succ j' =>
          simp only [List.getD_cons_succ]
          exact ih j' (Nat.lt_of_succ_lt_succ hj)

/- ### `npArgmax` commutes with strictly monotone maps -/

theorem listMax_map (f : ℝ → ℝ) (hf : Monotone f) (l : List ℝ) :
    listMax (l.map f) = (listMax l).map f := by
  induction l with
  | nil => simp [listMax]
  | cons x xs ih =>
    cases hxs : listMax xs with
    | none => simp [listMax, ih, hxs]
    | some m => simp [listMax, ih, hxs, hf.map_max]

theorem npArgmax_map (f : ℝ → ℝ) (hf : StrictMono f) (l : List ℝ) :
    npArgmax (l.map f) = npArgmax l := by
  induction l with
  | nil => simp
  | cons x xs ih =>
    cases hxs : listMax xs with
    | none =>
      have h2 : listMax (xs.map f) = none := by
        rw [listMax_map f hf.monotone, hxs]
        rfl
      simp [npArgmax, h2, hxs]
    | some m =>
      have h2 : listMax (xs.map f) = some (f m) := by
        rw [listMax_map f hf.monotone, hxs]
        rfl
      simp only [List.map_cons, npArgmax, h2, hxs, hf.le_iff_le, ih]

theorem strictMono_exp_div (S : ℝ) (hS : 0 < S) :
    StrictMono (fun x : ℝ => Real.exp x / S) := by
  intro a b hab
  exact (div_lt_div_iff_of_pos_right hS).mpr (Real.exp_lt_exp.mpr hab)

theorem npArgmax_softmax (L : List ℝ) : npArgmax (softmax L) = npArgmax L := by
  cases hL : L with
  | nil => simp [softmax]
  | cons x xs =>
    rw [← hL]
    have hne : L ≠ [] := by rw [hL]; exact List.cons_ne_nil _ _
    exact npArgmax_map _ (strictMono_exp_div _ (sum_map_exp_pos L hne)) L

/-- Inversion of `finalize`: a successful postprocessing determines both
fields of the prediction. -/
theorem finalize_eq_some (L : List ℝ) (pred : Prediction)
    (h : finalize L = some pred) :
    L ≠ [] ∧ pred.probabilities = softmax L ∧
      pred.predicted_label = npArgmax (softmax L) := by
  cases L with
  | nil => simp [finalize] at h
  | cons x xs =>
    simp only [finalize, Option.some.injEq] at h
    refine ⟨List.cons_ne_nil _ _, ?_, ?_⟩ <;> rw [← h]

/- ### Schema / reporting definitions (loop lines `labs`, `actual_class`,
`output_dict`) -/

/-- `actual_class = labs[d['label'].numpy()]`: Python list indexing, with an
out-of-range index (an `IndexError`) modelled as `none`. -/
def actual_class (label : Nat) : Option String := labs.get? label

/-- `output_dict = {k:v for k, v in zip(config.id2label.values(), out[0])}`:
Python `zip` pairs positionally and stops at the shorter sequence, so the
dictionary has `min numClasses (length of out[0])` entries in schema order. -/
def output_dict (probs : List ℝ) : List (String × ℝ) :=
  id2label.zip probs

/- ### Claim theorems on the postprocessor -/

/-- C1: for every logits vector of length `numClasses`, the postprocessor
succeeds and returns a probability vector equal to the numerically stable
normalized-exponential transform, with all entries non-negative and sum
within `1e-6` of `1` (here: exactly `1`). -/
theorem finalize_returns_stable_distribution (L : List ℝ)
    (h : L.length = numClasses) :
    ∃ pred, finalize L = some pred ∧
      pred.probabilities = softmaxStable L ∧
      (∀ p ∈ pred.probabilities, 0 ≤ p) ∧
      |pred.probabilities.sum - 1| ≤ 1e-6 := by
  have hne : L ≠ [] := by
    intro he
    rw [he] at h
    simp [numClasses] at h
  obtain ⟨x, xs, rfl⟩ := List.exists_cons_of_ne_nil hne
  refine ⟨⟨softmax (x :: xs), npArgmax (softmax (x :: xs))⟩, rfl, ?_, ?_, ?_⟩
  · exact softmax_eq_stable (x :: xs)
  · exact softmax_nonneg (x :: xs) hne
  · rw [softmax_sum_one (x :: xs) hne]
    norm_num

/-- C1 witness at the concrete logits vector `[1, 2, 3, 4]`. -/
theorem finalize_returns_stable_distribution_witness :
    ([(1 : ℝ), 2, 3, 4].length = numClasses) ∧
    (∃ pred, finalize [(1 : ℝ), 2, 3, 4] = some pred ∧
      pred.probabilities = softmaxStable [(1 : ℝ), 2, 3, 4] ∧
      (∀ p ∈ pred.probabilities, 0 ≤ p) ∧
      |pred.probabilities.sum - 1| ≤ 1e-6) :=
  ⟨rfl, finalize_returns_stable_distribution [(1 : ℝ), 2, 3, 4] rfl⟩

/-- C2: the softmax transform preserves the arg-max: the arg-max index of
the probability vector produced by `finalize` equals the arg-max of the
logits. -/
theorem argmax_finalize_eq_argmax_logits (L : List ℝ) (pred : Prediction)
    (h : finalize L = some pred) :
    npArgmax pred.probabilities = npArgmax L := by
  rcases finalize_eq_some L pred h with ⟨-, hp, -⟩
  rw [hp, npArgmax_softmax]

/-- C2 witness at the concrete logits vector `[3, 1, 2]`. -/
theorem argmax_finalize_eq_argmax_logits_witness :
    finalize [(3 : ℝ), 1, 2]
      = some ⟨softmax [(3 : ℝ), 1, 2], npArgmax (softmax [(3 : ℝ), 1, 2])⟩ ∧
    npArgmax (Prediction.mk (softmax [(3 : ℝ), 1, 2])
        (npArgmax (softmax [(3 : ℝ), 1, 2]))).probabilities
      = npArgmax [(3 : ℝ), 1, 2] :=
  ⟨rfl, argmax_finalize_eq_argmax_logits [(3 : ℝ), 1, 2] _ rfl⟩

/-- C3: `predicted_label` is a valid index of the probability vector, its
entry dominates every probability, and every strictly earlier index holds a
strictly smaller value (lowest index wins ties). -/
theorem predicted_label_first_argmax (L : List ℝ) (pred : Prediction)
    (h : finalize L = some pred) :
    pred.predicted_label < pred.probabilities.length ∧
    (∀ a ∈ pred.probabilities,
      a ≤ pred.probabilities.getD pred.predicted_label 0) ∧
    (∀ j, j < pred.predicted_label →
      pred.probabilities.getD j 0
        < pred.probabilities.getD pred.predicted_label 0) := by
  rcases finalize_eq_some L pred h with ⟨hne, hp, hl⟩
  have hpe : pred.probabilities ≠ [] := by
    rw [hp]
    unfold softmax
    intro he
    exact hne (List.map_eq_nil_iff.mp he)
  have hl' : pred.predicted_label = npArgmax pred.probabilities := by
    rw [hl, hp]
  rw [hl']
  exact ⟨npArgmax_lt_length _ hpe, le_getD_npArgmax _,
    getD_lt_of_lt_npArgmax _⟩

/-- C3 witness at the concrete logits vector `[0, 5, 5]`. -/
theorem predicted_label_first_argmax_witness :
    finalize [(0 : ℝ), 5, 5]
      = some ⟨softmax [(0 : ℝ), 5, 5], npArgmax (softmax [(0 : ℝ), 5, 5])⟩ ∧
    ((Prediction.mk (softmax [(0 : ℝ), 5, 5])
        (npArgmax (softmax [(0 : ℝ), 5, 5]))).predicted_label
      < (Prediction.mk (softmax [(0 : ℝ), 5, 5])
        (npArgmax (softmax [(0 : ℝ), 5, 5]))).probabilities.length ∧
    (∀ a ∈ (Prediction.mk (softmax [(0 : ℝ), 5, 5])
        (npArgmax (softmax [(0 : ℝ), 5, 5]))).probabilities,
      a ≤ (Prediction.mk (softmax [(0 : ℝ), 5, 5])
        (npArgmax (softmax [(0 : ℝ), 5, 5]))).probabilities.getD
          (Prediction.mk (softmax [(0 : ℝ), 5, 5])
            (npArgmax (softmax [(0 : ℝ), 5, 5]))).predicted_label 0) ∧
    (∀ j, j < (Prediction.mk (softmax [(0 : ℝ), 5, 5])
        (npArgmax (softmax [(0 : ℝ), 5, 5]))).predicted_label →
      (Prediction.mk (softmax [(0 : ℝ), 5, 5])
        (npArgmax (softmax [(0 : ℝ), 5, 5]))).probabilities.getD j 0
        < (Prediction.mk (softmax [(0 : ℝ), 5, 5])
        (npArgmax (softmax [(0 : ℝ), 5, 5]))).probabilities.getD
          (Prediction.mk (softmax [(0 : ℝ), 5, 5])
            (npArgmax (softmax [(0 : ℝ), 5, 5]))).predicted_label 0)) :=
  ⟨rfl, predicted_label_first_argmax [(0 : ℝ), 5, 5] _ rfl⟩

/-- C8 counterexample: on a logits vector of length 3 ≠ `numClasses` = 4 the
postprocessing succeeds (no shape check anywhere in the loop body; the
`zip` in `output_dict` silently truncates instead), so no
`ShapeMismatchError` is signaled. -/
theorem finalize_no_shape_error_counterexample :
    [(0 : ℝ), 0, 0].length ≠ numClasses ∧
    (finalize [(0 : ℝ), 0, 0]).isSome = true :=
  ⟨by decide, rfl⟩

/-- C8 amended: the postprocessing of the loop body succeeds on every
nonempty logits vector, of any length; its sole failure is the empty
logits vector (`np.argmax` of an empty array), and a length ≠ `numClasses`
is never signaled. -/
theorem finalize_isSome_iff (L : List ℝ) :
    (finalize L).isSome = true ↔ L ≠ [] := by
  cases L <;> simp [finalize]

/-- C10: the reported ground-truth name is `labs[label]`, i.e. the label
schema indexed by the dataset's integer label (requiring the dataset ids
and the schema ids to denote the same ordered class list), and the reported
dictionary pairs schema names with probabilities positionally, with exactly
`min numClasses (length of probs)` entries in schema order. -/
theorem report_indexes_schema (probs : List ℝ) (label : Nat)
    (h : label < numClasses) :
    actual_class label = some (id2label.getD label "") ∧
    (output_dict probs).length = min numClasses probs.length ∧
    (∀ i, (hi : i < (output_dict probs).length) →
      (output_dict probs).get ⟨i, hi⟩ = (id2label.getD i "", probs.getD i 0)) := by
  refine ⟨?_, ?_, ?_⟩
  · have h4 : label < 4 := h
    interval_cases label <;> rfl
  · show (id2label.zip probs).length = min numClasses probs.length
    rw [List.length_zip]
    rfl
  · intro i hi
    have hi' : i < min id2label.length probs.length := by
      rw [← List.length_zip]
      exact hi
    have hiL : i < id2label.length := lt_of_lt_of_le hi' (min_le_left _ _)
    have hiP : i < probs.length := lt_of_lt_of_le hi' (min_le_right _ _)
    show (id2label.zip probs).get ⟨i, hi⟩ = (id2label.getD i "", probs.getD i 0)
    rw [List.get_eq_getElem, List.getElem_zip,
      List.getD_eq_getElem id2label "" hiL, List.getD_eq_getElem probs 0 hiP]

/-- C10 witness at label 1 and the probability vector `[1/2, 1/2]`. -/
theorem report_indexes_schema_witness :
    (1 < numClasses) ∧
    (actual_class 1 = some (id2label.getD 1 "") ∧
    (output_dict [(1 : ℝ) / 2, 1 / 2]).length
      = min numClasses [(1 : ℝ) / 2, 1 / 2].length ∧
    (∀ i, (hi : i < (output_dict [(1 : ℝ) / 2, 1 / 2]).length) →
      (output_dict [(1 : ℝ) / 2, 1 / 2]).get ⟨i, hi⟩
        = (id2label.getD i "", [(1 : ℝ) / 2, 1 / 2].getD i 0))) :=
  ⟨by decide, report_indexes_schema [(1 : ℝ) / 2, 1 / 2] 1 (by decide)⟩

/- ### Preprocessor (tokenizer adapter) -/

/-- The Tokenized Input of the spec's data model: `token_ids` and
`attention_mask` of the tensor returned by the tokenizer call. -/
structure TokenizedInput where
  token_ids : List Nat
  attention_mask : List Nat

/-- Modelled from the spec: the sub-word tokenizer implementation is not in
this repository (the notebook calls the opaque external `AutoTokenizer`
artifact at `inp = tokenizer(art, return_tensors='pt')`), so the
Preprocessor contract of spec §4.2 is modelled: `tok` is the opaque
deterministic base tokenization (fixed vocabulary/config), truncated to
`L` tokens and padded with `padId` and a zero attention mask up to the
fixed length `L`. -/
def encode (tok : String → List Nat) (L padId : Nat) (text : String) :
    TokenizedInput :=
  let ids := (tok text).take L
  { token_ids := ids ++ List.replicate (L - ids.length) padId
    attention_mask :=
      List.replicate ids.length 1 ++ List.replicate (L - ids.length) 0 }

/-- C4: for every input text (empty or arbitrarily long), both components
of the encoding have length exactly `L`: the first `L` base tokens are
kept, and shorter inputs are padded with `padId` ids and a zero attention
mask. -/
theorem encode_fixed_length (tok : String → List Nat) (L padId : Nat)
    (text : String) :
    (encode tok L padId text).token_ids.length = L ∧
    (encode tok L padId text).attention_mask.length = L ∧
    (encode tok L padId text).token_ids
      = (tok text).take L
          ++ List.replicate (L - min L (tok text).length) padId ∧
    (encode tok L padId text).attention_mask
      = List.replicate (min L (tok text).length) 1
          ++ List.replicate (L - min L (tok text).length) 0 := by
  have hlen : ((tok text).take L).length = min L (tok text).length :=
    List.length_take ..
  refine ⟨?_, ?_, ?_, ?_⟩
  · show ((tok text).take L ++ _).length = L
    rw [List.length_append, List.length_replicate, hlen]
    omega
  · show (List.replicate ((tok text).take L).length 1 ++ _).length = L
    rw [List.length_append, List.length_replicate, List.length_replicate,
      hlen]
    omega
  · show (tok text).take L ++ _ = _
    rw [hlen]
  · show List.replicate ((tok text).take L).length 1 ++ _ = _
    rw [hlen]

/-- C5: `encode` is deterministic: two calls on the same text with the same
fixed tokenizer configuration yield identical token ids and masks. -/
theorem encode_deterministic (tok : String → List Nat) (L padId : Nat)
    (t1 t2 : String) (h : t1 = t2) :
    (encode tok L padId t1).token_ids = (encode tok L padId t2).token_ids ∧
    (encode tok L padId t1).attention_mask
      = (encode tok L padId t2).attention_mask := by
  subst h
  exact ⟨rfl, rfl⟩

/-- C5 witness: two encodings of the same concrete text coincide. -/
theorem encode_deterministic_witness :
    ("news article" = "news article") ∧
    ((encode (fun _ => [7, 7, 7]) 512 0 "news article").token_ids
        = (encode (fun _ => [7, 7, 7]) 512 0 "news article").token_ids ∧
      (encode (fun _ => [7, 7, 7]) 512 0 "news article").attention_mask
        = (encode (fun _ => [7, 7, 7]) 512 0 "news article").attention_mask) :=
  ⟨rfl, encode_deterministic (fun _ => [7, 7, 7]) 512 0
    "news article" "news article" rfl⟩

/- ### The inference loop -/

/-- A corpus record: `d['description']` text and integer `d['label']`. -/
structure Record where
  text : String
  label : Nat

/-- One line printed by the loop: the article text, the ground-truth class
name, the predicted class name and the per-class probability dictionary. -/
structure ReportEntry where
  article : String
  actual_class : Option String
  predicted_class : Option String
  predictions : List (String × ℝ)

/-- The postprocessing and reporting of one record given its logits:
`out = torch.softmax(logits)`, `class_ind = np.argmax(out[0])`,
`predicted_class = labs[class_ind]`, and the `output_dict` zip. -/
noncomputable def reportOf (d : Record) (logits : List ℝ) : ReportEntry :=
  let out := softmax logits
  { article := d.text
    actual_class := labs.get? d.label
    predicted_class := labs.get? (npArgmax out)
    predictions := output_dict out }

/-- The frozen model weights, held as explicit process-wide state
(spec §4.3: loaded once, read-only for the process lifetime). -/
structure ModelState (W : Type) where
  weights : W

/-- One forward pass `model(**inp).logits` under `torch.no_grad()`:
`forward` is the opaque frozen network; the loop body contains no
optimizer step and no backward call, so the state comes back unchanged. -/
def classifyStep {W : Type} (forward : W → TokenizedInput → List ℝ)
    (st : ModelState W) (inp : TokenizedInput) : List ℝ × ModelState W :=
  (forward st.weights inp, st)

/-- The notebook's inference loop `for d in ex_input: ...`, threading the
model state through the records and collecting the printed reports. -/
noncomputable def runLoop {W : Type} (forward : W → TokenizedInput → List ℝ)
    (tok : String → List Nat) (L padId : Nat) :
    ModelState W → List Record → List ReportEntry × ModelState W
  | st, [] => ([], st)
  | st, d :: ds =>
    let inp := encode tok L padId d.text
    let (logits, st') := classifyStep forward st inp
    let (rest, st'') := runLoop forward tok L padId st' ds
    (reportOf d logits :: rest, st'')

theorem runLoop_state_eq {W : Type} (forward : W → TokenizedInput → List ℝ)
    (tok : String → List Nat) (L padId : Nat) (st : ModelState W)
    (corpus : List Record) :
    (runLoop forward tok L padId st corpus).2 = st := by
  induction corpus generalizing st with
  | nil => rfl
  | cons d ds ih => simp [runLoop, classifyStep, ih]

/-- C7: `classify` is a pure function of its input and the frozen weights:
a single forward pass returns the state unchanged, and the weights after
any sequence of classify calls (a whole run of the loop) are the weights at
load time. -/
theorem classify_no_mutation {W : Type}
    (forward : W → TokenizedInput → List ℝ) (tok : String → List Nat)
    (L padId : Nat) (st : ModelState W) (corpus : List Record) :
    (∀ inp, (classifyStep forward st inp).2 = st) ∧
    (runLoop forward tok L padId st corpus).2.weights = st.weights := by
  exact ⟨fun _ => rfl, by rw [runLoop_state_eq]⟩

/-- C6: re-running the loop on the same corpus slice with the model state
left by the first run produces exactly the same reports and final state:
there is no randomness and no state drift at inference time. -/
theorem rerun_loop_identical {W : Type}
    (forward : W → TokenizedInput → List ℝ) (tok : String → List Nat)
    (L padId : Nat) (st : ModelState W) (corpus : List Record) :
    runLoop forward tok L padId
        ((runLoop forward tok L padId st corpus).2) corpus
      = runLoop forward tok L padId st corpus := by
  rw [runLoop_state_eq]

/- ### Error propagation in the loop -/

/-- The per-record error taxonomy of spec §7 that can arise inside the loop
body. -/
inductive PipelineError where
  | EncodingError
  | InferenceError
  | ShapeMismatchError
deriving DecidableEq

/-- The body of one loop iteration with fallible tokenizer and model calls.
The notebook's loop body has no `try`/`except`, so an exception raised by
either call propagates out of the iteration. -/
noncomputable def processRecordE
    (encodeE : String → Except PipelineError TokenizedInput)
    (classifyE : TokenizedInput → Except PipelineError (List ℝ))
    (d : Record) : Except PipelineError ReportEntry :=
  match encodeE d.text with
  | .error e => .error e
  | .ok inp =>
    match classifyE inp with
    | .error e => .error e
    | .ok logits => .ok (reportOf d logits)

/-- The notebook's `for` loop over fallible iterations: the reports printed
before any exception, paired with the exception that terminated the run,
if one was raised. A raised exception is uncaught, so it ends the whole
loop. -/
noncomputable def runLoopE
    (encodeE : String → Except PipelineError TokenizedInput)
    (classifyE : TokenizedInput → Except PipelineError (List ℝ)) :
    List Record → List ReportEntry × Option PipelineError
  | [] => ([], none)
  | d :: ds =>
    match processRecordE encodeE classifyE d with
    | .error e => ([], some e)
    | .ok entry =>
      let (rest, err) := runLoopE encodeE classifyE ds
      (entry :: rest, err)

/-- A fallible tokenizer that raises on the text `"bad"` and succeeds on
everything else. -/
noncomputable def encBad : String → Except PipelineError TokenizedInput :=
  fun s => if s = "bad" then .error .EncodingError else .ok ⟨[101], [1]⟩

/-- A model call that always succeeds. -/
noncomputable def clsOk : TokenizedInput → Except PipelineError (List ℝ) :=
  fun _ => .ok [1, 0, 0, 0]

/-- C9 counterexample: with a first record whose encoding raises and a
second well-formed record, the loop produces no report at all — in
particular none for the second record, which on its own would have been
processed — so a per-record error does not let the pipeline continue with
subsequent records. -/
theorem loop_aborts_on_error_counterexample :
    runLoopE encBad clsOk [⟨"bad", 0⟩, ⟨"good", 1⟩]
      = ([], some .EncodingError) ∧
    (runLoopE encBad clsOk [⟨"good", 1⟩]).1 ≠ [] := by
  constructor
  · simp [runLoopE, processRecordE, encBad]
  · simp [runLoopE, processRecordE, encBad, clsOk]

/-- C9 amended: an error in any record aborts the entire remaining run,
not just that record: the loop stops at the first failing record, produces
no report for it or for any later record, performs no retries, and only
the bare error propagates. Records are otherwise processed in order. -/
theorem loop_error_propagation
    (encodeE : String → Except PipelineError TokenizedInput)
    (classifyE : TokenizedInput → Except PipelineError (List ℝ))
    (d : Record) (ds : List Record) (e : PipelineError)
    (h : processRecordE encodeE classifyE d = .error e) :
    runLoopE encodeE classifyE (d :: ds) = ([], some e) := by
  simp [runLoopE, h]

/-- C9 amended-claim witness at the concrete failing batch. -/
theorem loop_error_propagation_witness :
    processRecordE encBad clsOk ⟨"bad", 0⟩
      = .error PipelineError.EncodingError ∧
    runLoopE encBad clsOk [⟨"bad", 0⟩, ⟨"good", 1⟩]
      = ([], some PipelineError.EncodingError) := by
  have h : processRecordE encBad clsOk ⟨"bad", 0⟩
      = .error PipelineError.EncodingError := by
    simp [processRecordE, encBad]
  exact ⟨h, loop_error_propagation encBad clsOk ⟨"bad", 0⟩ [⟨"good", 1⟩]
    PipelineError.EncodingError h⟩

end Blogs
